import Mathlib

/-! Verification of the LibSVM text parser of dmlc-core, embedded from
`src/src/data/libsvm_parser.h`. The member function
`LibSVMParser::ParseBlock` (lines 189-273) and the line scanner
`IgnoreCommentAndBlank` (lines 67-84) are translated below. The external
primitives `ParsePair` and `atoll` (dmlc/strtonum.h) and
`RowBlockContainer::Clear` (row_block.h) are code of the repository that is
not under src/ and are modelled from the specification, as marked on each
definition. Machine integers: feature ids are unsigned 32-bit values and
qids unsigned 64-bit values, both represented as naturals reduced modulo
the word size where overflow matters. Floating-point scalars are decimal
literals of the grammar the inputs use, kept exactly as scanned (sign,
integer part, fraction digits); `DecLit.toRat` gives their numeric value. -/

namespace LibSVM

/-- C `isblank`: a space or a horizontal tab. -/
def isblankC (c : Char) : Bool := c == ' ' || c == '\t'

/-- Embedding of `IgnoreCommentAndBlank` (src/src/data/libsvm_parser.h,
lines 67-84), instantiated at the default comment symbol: the returned
offset is the full length when the comment symbol appears before any
non-blank character or when the whole range is blank, and the position of
the first non-blank character otherwise. -/
def IgnoreCommentAndBlank : List Char → Nat
  | [] => 0
  | c :: rest =>
    if c == '#' then rest.length + 1
    else if isblankC c then IgnoreCommentAndBlank rest + 1
    else 0

/-- Modelled from the spec: decimal-digit scanning used by the numeric
primitives of dmlc/strtonum.h (not under src/). Accumulates the value of
the leading digits and returns it with the unconsumed rest. -/
def scanDigits : List Char → Nat → Nat × List Char
  | [], acc => (acc, [])
  | c :: rest, acc =>
    if c.isDigit then scanDigits rest (acc * 10 + (c.toNat - 48))
    else (acc, c :: rest)

/-- Modelled from the spec: fractional-digit scanning; returns the digits'
value, how many digits there were, and the unconsumed rest. -/
def scanFrac : List Char → Nat → Nat → Nat × Nat × List Char
  | [], acc, k => (acc, k, [])
  | c :: rest, acc, k =>
    if c.isDigit then scanFrac rest (acc * 10 + (c.toNat - 48)) (k + 1)
    else (acc, k, c :: rest)

/-- A floating-point scalar as the parser reads it: an optional minus sign,
the integer part, and the fraction digits with their count. The numeric
value is `DecLit.toRat`. -/
structure DecLit where
  neg : Bool
  ip : Nat
  fp : Nat
  fd : Nat
deriving DecidableEq, Repr

/-- Numeric value of a scanned decimal literal. -/
def DecLit.toRat (d : DecLit) : Rat :=
  (if d.neg then -1 else 1) * ((d.ip : Rat) + (d.fp : Rat) / (10 : Rat) ^ d.fd)

/-- Modelled from the spec: the floating-point scanner behind the Pair
Tokenizer (dmlc/strtonum.h, not under src/), on the decimal grammar the
spec's scenarios exercise: an optional minus sign, integer digits, and an
optional dot-separated fractional part. -/
def scanDec (l : List Char) : DecLit × List Char :=
  let s : Bool × List Char :=
    (match l with
     | '-' :: rest => (true, rest)
     | _ => (false, l))
  let d := scanDigits s.2 0
  let f : Nat × Nat × List Char :=
    (match d.2 with
     | '.' :: rest => scanFrac rest 0 0
     | _ => (0, 0, d.2))
  (⟨s.1, d.1, f.1, f.2.1⟩, f.2.2)

/-- Modelled from the spec: the Pair Tokenizer
`ParsePair<real_t, real_t>` (dmlc/strtonum.h, not under src/) used for
`label[:weight]`. It skips leading characters that cannot start a number,
then parses one `key[:value]` token, reporting how many of the two fields
were present and where parsing stopped; when nothing was parseable it
reports 0 fields with the end of the range as the stop position, matching
the caller's comment at src/src/data/libsvm_parser.h lines 242-243. -/
def parsePairRR : List Char → Nat × DecLit × DecLit × List Char
  | [] => (0, ⟨false, 0, 0, 0⟩, ⟨false, 0, 0, 0⟩, [])
  | c :: rest =>
    if c.isDigit || c == '-' || c == '.' then
      let v1 := scanDec (c :: rest)
      match v1.2 with
      | ':' :: p3 =>
        let v2 := scanDec p3
        (2, v1.1, v2.1, v2.2)
      | _ => (1, v1.1, ⟨false, 0, 0, 0⟩, v1.2)
    else parsePairRR rest

/-- Modelled from the spec: the Pair Tokenizer
`ParsePair<IndexType, real_t>` (dmlc/strtonum.h, not under src/) used for
`feature-id[:value]`. The key is an unsigned 32-bit integer, the value a
float; the report convention is the same as for the label variant. -/
def parsePairIR : List Char → Nat × Nat × DecLit × List Char
  | [] => (0, 0, ⟨false, 0, 0, 0⟩, [])
  | c :: rest =>
    if c.isDigit then
      let d := scanDigits (c :: rest) 0
      match d.2 with
      | ':' :: p3 =>
        let v := scanDec p3
        (2, d.1 % 2 ^ 32, v.1, v.2)
      | _ => (1, d.1 % 2 ^ 32, ⟨false, 0, 0, 0⟩, d.2)
    else parsePairIR rest

/-- Sparse block fields written by the parser: the fields of
`RowBlockContainer` used in src/src/data/libsvm_parser.h (row_block.h
itself is not under src/). -/
structure RowBlockContainer where
  offset : List Nat
  label : List DecLit
  weight : List DecLit
  qid : List Nat
  index : List Nat
  value : List DecLit
deriving DecidableEq, Repr

/-- Modelled from the spec: `RowBlockContainer::Clear` (row_block.h, not
under src/) resets every field and seeds `offset` with a single 0, per the
data model (a block starts empty and `offset[0] = 0`; after the pass
`offset.length = label.length + 1`, which forces the seed entry). -/
def RowBlockContainer.clear (_ : RowBlockContainer) : RowBlockContainer :=
  { offset := [0], label := [], weight := [], qid := [], index := [], value := [] }

/-- State of one parse pass: the output block under construction plus the
running minimum feature id `min_feat_id` of src/src/data/libsvm_parser.h
line 197, initialised to the largest unsigned 32-bit value. -/
structure PassState where
  block : RowBlockContainer
  min_feat_id : Nat
deriving DecidableEq, Repr

/-- Feature loop of `LibSVMParser::ParseBlock`
(src/src/data/libsvm_parser.h lines 235-254): skip blanks and comments,
parse one `id[:value]` pair, push the id unconditionally and the value only
when both fields were present, update the running minimum, and repeat until
the line is exhausted. The C++ `while` loop makes progress because every
reported pair consumes at least one character; the fuel argument,
instantiated by the caller with one more than the line length, is an upper
bound on the number of iterations. -/
def featLoop : Nat → List Char → PassState → PassState
  | 0, _, st => st
  | _ + 1, [], st => st
  | fuel + 1, cc :: rest, st =>
    let r := parsePairIR ((cc :: rest).drop (IgnoreCommentAndBlank (cc :: rest)))
    if r.1 < 1 then st
    else
      featLoop fuel r.2.2.2
        { block := { st.block with
            index := st.block.index ++ [r.2.1],
            value := if r.1 = 2 then st.block.value ++ [r.2.2.1] else st.block.value },
          min_feat_id := min r.2.1 st.min_feat_id }

/-- Label step of `LibSVMParser::ParseBlock`
(src/src/data/libsvm_parser.h lines 216-223), applied once the label pair
was reported with at least one field: push the weight when the pair had two
fields, close the previous record's offset range when this is not the first
record, then push the label. -/
def labelStep (lr : Nat × DecLit × DecLit × List Char) (b : RowBlockContainer) :
    RowBlockContainer :=
  let b1 := if lr.1 = 2 then { b with weight := b.weight ++ [lr.2.2.1] } else b
  let b2 := if b1.label = [] then b1
            else { b1 with offset := b1.offset ++ [b1.index.length] }
  { b2 with label := b2.label ++ [lr.2.1] }

/-- Qid step of `LibSVMParser::ParseBlock`
(src/src/data/libsvm_parser.h lines 225-233): skip spaces; when the rest of
the line literally starts with the four characters of the qid marker, push
the unsigned integer after it (`atoll`, modelled from the spec as the value
of the leading decimal digits, cast to unsigned 64-bit) and advance past
its digits. Returns the position at which the feature loop starts together
with the updated block. -/
def qidStep (q : List Char) (b : RowBlockContainer) :
    List Char × RowBlockContainer :=
  let q1 := q.dropWhile (fun c => c == ' ')
  if q1 ≠ [] ∧ q1.take 4 = ['q', 'i', 'd', ':'] then
    ((q1.drop 4).dropWhile Char.isDigit,
     { b with qid := b.qid ++ [(scanDigits (q1.drop 4) 0).1 % 2 ^ 64] })
  else (q1, b)

/-- One line of `LibSVMParser::ParseBlock`
(src/src/data/libsvm_parser.h lines 203-254): skip blanks and comments,
parse `label[:weight]`; a line with no parseable label at all is skipped
entirely; otherwise run the label, qid and feature steps in order. -/
def processLine (line : List Char) (st : PassState) : PassState :=
  let lr := parsePairRR (line.drop (IgnoreCommentAndBlank line))
  if lr.1 < 1 then st
  else
    let qb := qidStep lr.2.2.2 (labelStep lr st.block)
    featLoop (qb.1.length + 1) qb.1 ⟨qb.2, st.min_feat_id⟩

/-- Line loop of `LibSVMParser::ParseBlock`
(src/src/data/libsvm_parser.h lines 199-257): a line runs from the current
position up to, but excluding, the first newline or carriage return
strictly after it; the terminator therefore starts the next line, which is
then parsed as an empty line. Every iteration consumes at least the first
character, so fuel equal to the input length is an upper bound on the
number of iterations. -/
def parseLinesF : Nat → List Char → PassState → PassState
  | 0, _, st => st
  | _ + 1, [], st => st
  | fuel + 1, cc :: rest, st =>
      parseLinesF fuel (rest.dropWhile (fun ch => ch != '\n' && ch != '\r'))
        (processLine (cc :: rest.takeWhile (fun ch => ch != '\n' && ch != '\r')) st)

/-- Line loop entry point with sufficient fuel. -/
def parseLines (l : List Char) (st : PassState) : PassState :=
  parseLinesF l.length l st

/-- Unsigned 32-bit decrement: the in-place `--e` of
src/src/data/libsvm_parser.h line 270 on an unsigned feature id (wraps at
zero). -/
def dec32 (e : Nat) : Nat := (e + (2 ^ 32 - 1)) % 2 ^ 32

/-- Final offset push of `LibSVMParser::ParseBlock`
(src/src/data/libsvm_parser.h lines 258-260): close the last record's
offset range if any record was parsed. -/
def closeOffsets (b : RowBlockContainer) : RowBlockContainer :=
  if b.label = [] then b
  else { b with offset := b.offset ++ [b.index.length] }

/-- End of `LibSVMParser::ParseBlock` (src/src/data/libsvm_parser.h lines
258-272): close the last record's offset range, then resolve the indexing
origin: decrement every collected id when `indexing_mode > 0`, or when
`indexing_mode < 0`, the index is non-empty and the running minimum feature
id is positive. The `CHECK` at line 261 always holds (see the
offset-invariant theorem below) and has no effect. -/
def finishPass (indexing_mode : Int) (st : PassState) : RowBlockContainer :=
  if 0 < indexing_mode ∨
      (indexing_mode < 0 ∧ (closeOffsets st.block).index ≠ [] ∧
        0 < st.min_feat_id) then
    { closeOffsets st.block with
        index := (closeOffsets st.block).index.map dec32 }
  else closeOffsets st.block

/-- Embedding of `LibSVMParser::ParseBlock`
(src/src/data/libsvm_parser.h lines 189-273): clear the output container,
run the line loop over the byte range, and finish the pass. -/
def parseBlockMember (input : List Char) (indexing_mode : Int)
    (out : RowBlockContainer) : RowBlockContainer :=
  finishPass indexing_mode (parseLines input ⟨out.clear, 2 ^ 32 - 1⟩)

/-- Invariant maintained by the line loop: the offset list starts at zero,
is non-decreasing, stays within the index length, and has one entry per
record once a record exists (the seed entry before that); features exist
only once a record does; and the running minimum is the left fold of `min`
over the collected feature ids. -/
def Inv (st : PassState) : Prop :=
  st.block.offset.head? = some 0 ∧
  List.Pairwise (· ≤ ·) st.block.offset ∧
  (∀ x ∈ st.block.offset, x ≤ st.block.index.length) ∧
  st.block.offset.length =
    (if st.block.label = [] then 1 else st.block.label.length) ∧
  (st.block.label = [] → st.block.index = []) ∧
  st.min_feat_id = st.block.index.foldl (fun m e => min e m) (2 ^ 32 - 1)

/-- The feature loop writes only `index`, `value` and the running minimum:
the other block fields are untouched, the ids are appended as a suffix, and
the final minimum is the fold of `min` over that suffix. -/
theorem featLoop_spec (fuel : Nat) (p : List Char) (b : RowBlockContainer)
    (m : Nat) :
    ∃ ix : List Nat,
      (featLoop fuel p ⟨b, m⟩).block.offset = b.offset ∧
      (featLoop fuel p ⟨b, m⟩).block.label = b.label ∧
      (featLoop fuel p ⟨b, m⟩).block.weight = b.weight ∧
      (featLoop fuel p ⟨b, m⟩).block.qid = b.qid ∧
      (featLoop fuel p ⟨b, m⟩).block.index = b.index ++ ix ∧
      (featLoop fuel p ⟨b, m⟩).min_feat_id =
        ix.foldl (fun acc e => min e acc) m := by
  induction fuel generalizing p b m with
  | zero => exact ⟨[], by simp [featLoop]⟩
  | succ n ih =>
    cases p with
    | nil => exact ⟨[], by simp [featLoop]⟩
    | cons cc rest =>
      simp only [featLoop]
      split
      · exact ⟨[], by simp⟩
      · obtain ⟨ix, h1, h2, h3, h4, h5, h6⟩ :=
          ih (parsePairIR ((cc :: rest).drop (IgnoreCommentAndBlank (cc :: rest)))).2.2.2
            { b with
              index := b.index ++
                [(parsePairIR ((cc :: rest).drop (IgnoreCommentAndBlank (cc :: rest)))).2.1],
              value := if (parsePairIR ((cc :: rest).drop (IgnoreCommentAndBlank (cc :: rest)))).1 = 2
                then b.value ++
                  [(parsePairIR ((cc :: rest).drop (IgnoreCommentAndBlank (cc :: rest)))).2.2.1]
                else b.value }
            (min (parsePairIR ((cc :: rest).drop (IgnoreCommentAndBlank (cc :: rest)))).2.1 m)
        refine ⟨(parsePairIR ((cc :: rest).drop (IgnoreCommentAndBlank (cc :: rest)))).2.1 :: ix,
          ?_, ?_, ?_, ?_, ?_, ?_⟩
        · simpa using h1
        · simpa using h2
        · simpa using h3
        · simpa using h4
        · rw [h5]; simp
        · rw [h6]; rfl

/-- The label step leaves `index` and `qid` alone, appends exactly one
label, and extends `offset` by the current index length unless this is the
first record. -/
theorem labelStep_fields (lr : Nat × DecLit × DecLit × List Char)
    (b : RowBlockContainer) :
    (labelStep lr b).offset =
      (if b.label = [] then b.offset else b.offset ++ [b.index.length]) ∧
    (labelStep lr b).label = b.label ++ [lr.2.1] ∧
    (labelStep lr b).index = b.index ∧
    (labelStep lr b).qid = b.qid := by
  unfold labelStep
  split <;> split <;> simp_all

/-- The qid step writes only the `qid` field of the block. -/
theorem qidStep_fields (q : List Char) (b : RowBlockContainer) :
    (qidStep q b).2.offset = b.offset ∧
    (qidStep q b).2.label = b.label ∧
    (qidStep q b).2.index = b.index ∧
    (qidStep q b).2.weight = b.weight := by
  simp only [qidStep]
  split <;> simp

/-- Processing one successfully labelled record preserves the pass
invariant. -/
theorem record_step_inv (lr : Nat × DecLit × DecLit × List Char)
    (q : List Char) (fuel : Nat) (st : PassState) (h : Inv st) :
    Inv (featLoop fuel (qidStep q (labelStep lr st.block)).1
      ⟨(qidStep q (labelStep lr st.block)).2, st.min_feat_id⟩) := by
  obtain ⟨h1, h2, h3, h4, h5, h6⟩ := h
  obtain ⟨hLo, hLl, hLi, hLq⟩ := labelStep_fields lr st.block
  obtain ⟨hQo, hQl, hQi, hQw⟩ := qidStep_fields q (labelStep lr st.block)
  obtain ⟨ix, hF1, hF2, hF3, hF4, hF5, hF6⟩ :=
    featLoop_spec fuel (qidStep q (labelStep lr st.block)).1
      (qidStep q (labelStep lr st.block)).2 st.min_feat_id
  have hBo : (featLoop fuel (qidStep q (labelStep lr st.block)).1
      ⟨(qidStep q (labelStep lr st.block)).2, st.min_feat_id⟩).block.offset =
      (if st.block.label = [] then st.block.offset
       else st.block.offset ++ [st.block.index.length]) :=
    hF1.trans (hQo.trans hLo)
  have hBl : (featLoop fuel (qidStep q (labelStep lr st.block)).1
      ⟨(qidStep q (labelStep lr st.block)).2, st.min_feat_id⟩).block.label =
      st.block.label ++ [lr.2.1] :=
    hF2.trans (hQl.trans hLl)
  have hBi : (featLoop fuel (qidStep q (labelStep lr st.block)).1
      ⟨(qidStep q (labelStep lr st.block)).2, st.min_feat_id⟩).block.index =
      st.block.index ++ ix := by
    rw [hF5, hQi, hLi]
  refine ⟨?_, ?_, ?_, ?_, ?_, ?_⟩
  · -- offset still starts at 0
    rw [hBo]
    by_cases hlab : st.block.label = []
    · rw [if_pos hlab]; exact h1
    · rw [if_neg hlab]
      cases hoff : st.block.offset with
      | nil => rw [hoff] at h1; exact absurd h1 (by simp)
      | cons a t =>
        rw [hoff] at h1
        rw [List.cons_append]
        simpa using h1
  · -- offset stays non-decreasing
    rw [hBo]
    by_cases hlab : st.block.label = []
    · rw [if_pos hlab]; exact h2
    · rw [if_neg hlab, List.pairwise_append]
      refine ⟨h2, by simp, ?_⟩
      intro x hx y hy
      rw [List.mem_singleton] at hy
      subst hy
      exact h3 x hx
  · -- offset entries bounded by the index length
    rw [hBo, hBi]
    by_cases hlab : st.block.label = []
    · rw [if_pos hlab]
      intro x hx
      exact le_trans (h3 x hx) (by simp)
    · rw [if_neg hlab]
      intro x hx
      rcases List.mem_append.mp hx with hx | hx
      · exact le_trans (h3 x hx) (by simp)
      · rw [List.mem_singleton] at hx
        subst hx
        simp
  · -- offset length counts the records
    rw [hBo, hBl]
    have hne : st.block.label ++ [lr.2.1] ≠ [] := by simp
    rw [if_neg hne, List.length_append]
    by_cases hlab : st.block.label = []
    · rw [if_pos hlab, h4, if_pos hlab, hlab]
      rfl
    · rw [if_neg hlab, List.length_append, h4, if_neg hlab]
      rfl
  · -- a record now exists
    intro hc
    rw [hBl] at hc
    exact absurd hc (by simp)
  · -- running minimum is the fold over the collected ids
    rw [hF6, hBi, List.foldl_append, ← h6]

/-- Every line preserves the pass invariant. -/
theorem processLine_inv (line : List Char) (st : PassState) (h : Inv st) :
    Inv (processLine line st) := by
  simp only [processLine]
  split
  · exact h
  · exact record_step_inv _ _ _ st h

/-- The line loop preserves the pass invariant, whatever the fuel. -/
theorem parseLinesF_inv (fuel : Nat) :
    ∀ (l : List Char) (st : PassState), Inv st → Inv (parseLinesF fuel l st) := by
  induction fuel with
  | zero => intro l st h; simpa [parseLinesF] using h
  | succ n ih =>
    intro l st h
    cases l with
    | nil => simpa [parseLinesF] using h
    | cons c rest =>
      simpa [parseLinesF] using ih _ _ (processLine_inv _ _ h)

/-- The freshly cleared container satisfies the pass invariant. -/
theorem inv_init (out : RowBlockContainer) :
    Inv ⟨out.clear, 2 ^ 32 - 1⟩ :=
  ⟨rfl, by simp [RowBlockContainer.clear], by simp [RowBlockContainer.clear],
    by simp [RowBlockContainer.clear], fun _ => rfl, rfl⟩

/-- The pass invariant holds after the line loop of any parse pass. -/
theorem parseLines_inv (input : List Char) (out : RowBlockContainer) :
    Inv (parseLines input ⟨out.clear, 2 ^ 32 - 1⟩) :=
  parseLinesF_inv _ _ _ (inv_init out)

/-- Positivity of the running minimum amounts to positivity of the start
value and of every folded element. -/
theorem pos_foldl_min (l : List Nat) :
    ∀ a : Nat,
      (0 < l.foldl (fun acc e => min e acc) a ↔ 0 < a ∧ ∀ e ∈ l, 0 < e) := by
  induction l with
  | nil => intro a; simp
  | cons x xs ih =>
    intro a
    rw [List.foldl_cons, ih]
    constructor
    · rintro ⟨hmin, hall⟩
      rw [lt_min_iff] at hmin
      refine ⟨hmin.2, ?_⟩
      intro e he
      rcases List.mem_cons.mp he with rfl | hmem
      · exact hmin.1
      · exact hall e hmem
    · rintro ⟨ha, hall⟩
      exact ⟨lt_min_iff.mpr ⟨hall x (List.mem_cons_self _ _), ha⟩,
        fun e he => hall e (List.mem_cons_of_mem _ he)⟩

/-- Closing the offsets leaves the index sequence unchanged. -/
theorem closeOffsets_index (b : RowBlockContainer) :
    (closeOffsets b).index = b.index := by
  unfold closeOffsets
  split <;> rfl

/-- Closing the offsets leaves the labels unchanged. -/
theorem closeOffsets_label (b : RowBlockContainer) :
    (closeOffsets b).label = b.label := by
  unfold closeOffsets
  split <;> rfl

/-- The indexing-origin resolution touches only the index sequence. -/
theorem finishPass_offset (mode : Int) (st : PassState) :
    (finishPass mode st).offset = (closeOffsets st.block).offset := by
  unfold finishPass
  split <;> rfl

/-- Labels survive the end of the pass unchanged. -/
theorem finishPass_label (mode : Int) (st : PassState) :
    (finishPass mode st).label = st.block.label := by
  unfold finishPass
  split <;> exact closeOffsets_label st.block

/-- The index length survives the end of the pass unchanged. -/
theorem finishPass_index_length (mode : Int) (st : PassState) :
    (finishPass mode st).index.length = st.block.index.length := by
  unfold finishPass
  split <;> simp [closeOffsets_index]

/-- Characterisation of the index sequence produced by the end of the pass,
under the pass invariant: the running minimum is positive exactly when
every collected id is, so the indexing-origin decision table reads off the
collected ids themselves. -/
theorem finishPass_index (mode : Int) (st : PassState) (h : Inv st) :
    (finishPass mode st).index =
      (if 0 < mode then st.block.index.map dec32
       else if mode = 0 then st.block.index
       else if st.block.index ≠ [] ∧ ∀ e ∈ st.block.index, 0 < e then
         st.block.index.map dec32
       else st.block.index) := by
  obtain ⟨-, -, -, -, -, h6⟩ := h
  have hpos : (0 : Nat) < 2 ^ 32 - 1 := by norm_num
  unfold finishPass
  rcases lt_trichotomy mode 0 with hm | hm | hm
  · have h0 : ¬ 0 < mode := by omega
    have heq : (0 < mode ∨
        (mode < 0 ∧ (closeOffsets st.block).index ≠ [] ∧ 0 < st.min_feat_id))
        ↔ (st.block.index ≠ [] ∧ ∀ e ∈ st.block.index, 0 < e) := by
      rw [closeOffsets_index]
      constructor
      · rintro (hc | ⟨-, hne, hmin⟩)
        · exact absurd hc h0
        · rw [h6, pos_foldl_min] at hmin
          exact ⟨hne, hmin.2⟩
      · rintro ⟨hne, hall⟩
        exact Or.inr ⟨hm, hne, by rw [h6, pos_foldl_min]; exact ⟨hpos, hall⟩⟩
    by_cases hC : st.block.index ≠ [] ∧ ∀ e ∈ st.block.index, 0 < e
    · rw [if_pos (heq.mpr hC), if_neg h0, if_neg (by omega : ¬ mode = 0),
        if_pos hC]
      simp [closeOffsets_index]
    · rw [if_neg (fun hcc => hC (heq.mp hcc)), if_neg h0,
        if_neg (by omega : ¬ mode = 0), if_neg hC]
      exact closeOffsets_index _
  · subst hm
    rw [if_neg (by simp), if_neg (by omega : ¬ (0 : Int) < 0), if_pos rfl]
    exact closeOffsets_index _
  · rw [if_pos (Or.inl hm), if_pos hm]
    simp [closeOffsets_index]

/-- C4: for every input, every indexing mode and every prior container
state, the block produced by `LibSVMParser::ParseBlock` satisfies
`offset.length = label.length + 1`, `offset` is non-decreasing with
`offset[0] = 0`, and its last entry equals `index.length`, so record i's
features occupy the half-open range from `offset[i]` to `offset[i+1]`. -/
theorem c4_offset_invariants (input : List Char) (indexing_mode : Int)
    (out : RowBlockContainer) :
    (parseBlockMember input indexing_mode out).offset.length =
      (parseBlockMember input indexing_mode out).label.length + 1 ∧
    (parseBlockMember input indexing_mode out).offset.head? = some 0 ∧
    List.Pairwise (· ≤ ·) (parseBlockMember input indexing_mode out).offset ∧
    (parseBlockMember input indexing_mode out).offset.getLast? =
      some (parseBlockMember input indexing_mode out).index.length := by
  obtain ⟨h1, h2, h3, h4, h5, -⟩ := parseLines_inv input out
  unfold parseBlockMember
  rw [finishPass_offset, finishPass_label, finishPass_index_length]
  unfold closeOffsets
  by_cases hlab : (parseLines input ⟨out.clear, 2 ^ 32 - 1⟩).block.label = []
  · rw [if_pos hlab]
    have hoff : (parseLines input ⟨out.clear, 2 ^ 32 - 1⟩).block.offset = [0] := by
      cases hoo : (parseLines input ⟨out.clear, 2 ^ 32 - 1⟩).block.offset with
      | nil => rw [hoo] at h1; exact absurd h1 (by simp)
      | cons a t =>
        rw [hoo] at h1 h4
        rw [if_pos hlab] at h4
        simp only [List.head?_cons, Option.some.injEq] at h1
        simp only [List.length_cons] at h4
        have ht : t = [] := List.length_eq_zero.mp (by omega)
        rw [h1, ht]
    rw [hoff, hlab, h5 hlab]
    refine ⟨rfl, rfl, by simp, rfl⟩
  · rw [if_neg hlab]
    refine ⟨?_, ?_, ?_, ?_⟩
    · rw [List.length_append, h4, if_neg hlab]
      rfl
    · cases hoo : (parseLines input ⟨out.clear, 2 ^ 32 - 1⟩).block.offset with
      | nil => rw [hoo] at h1; exact absurd h1 (by simp)
      | cons a t =>
        rw [hoo] at h1
        rw [List.cons_append]
        simpa using h1
    · rw [List.pairwise_append]
      refine ⟨h2, by simp, ?_⟩
      intro x hx y hy
      rw [List.mem_singleton] at hy
      subst hy
      exact h3 x hx
    · exact List.getLast?_concat _

/-- C5: the indexing-origin resolution of `LibSVMParser::ParseBlock`
follows the decision table: with `indexing_mode > 0` every collected id is
decremented (the unsigned modular decrement of `--e`), with
`indexing_mode = 0` the index is unchanged, and with `indexing_mode < 0`
the ids are decremented exactly when the collected index sequence is
non-empty and its minimum is positive (equivalently: every collected id is
positive). -/
theorem c5_indexing_origin_decision_table (input : List Char)
    (indexing_mode : Int) (out : RowBlockContainer) :
    (parseBlockMember input indexing_mode out).index =
      (if 0 < indexing_mode then
        ((parseLines input ⟨out.clear, 2 ^ 32 - 1⟩).block.index).map dec32
      else if indexing_mode = 0 then
        (parseLines input ⟨out.clear, 2 ^ 32 - 1⟩).block.index
      else if (parseLines input ⟨out.clear, 2 ^ 32 - 1⟩).block.index ≠ [] ∧
          ∀ e ∈ (parseLines input ⟨out.clear, 2 ^ 32 - 1⟩).block.index,
            0 < e then
        ((parseLines input ⟨out.clear, 2 ^ 32 - 1⟩).block.index).map dec32
      else (parseLines input ⟨out.clear, 2 ^ 32 - 1⟩).block.index) :=
  finishPass_index indexing_mode _ (parseLines_inv input out)

/-- C6: when every collected feature id is at least 1, parsing with
`indexing_mode = 1` (forced shift) and with `indexing_mode = -1`
(auto-detect) produce identical feature id sequences. -/
theorem c6_force_shift_matches_auto_detect (input : List Char)
    (out : RowBlockContainer)
    (h : ∀ e ∈ (parseLines input ⟨out.clear, 2 ^ 32 - 1⟩).block.index,
      1 ≤ e) :
    (parseBlockMember input 1 out).index =
      (parseBlockMember input (-1) out).index := by
  unfold parseBlockMember
  rw [finishPass_index 1 _ (parseLines_inv input out),
    finishPass_index (-1) _ (parseLines_inv input out)]
  by_cases hne : (parseLines input ⟨out.clear, 2 ^ 32 - 1⟩).block.index = []
  · rw [hne]
    norm_num
  · rw [if_pos (by norm_num : (0 : Int) < 1),
      if_neg (by norm_num : ¬ (0 : Int) < -1),
      if_neg (by norm_num : ¬ (-1 : Int) = 0),
      if_pos ⟨hne, fun e he => h e he⟩]

/-- Witness for C6 at the concrete input whose only feature id is 2. -/
theorem c6_force_shift_matches_auto_detect_witness :
    (parseBlockMember ("1 2:0.5\n".toList) 1 ⟨[], [], [], [], [], []⟩).index =
      (parseBlockMember ("1 2:0.5\n".toList) (-1)
        ⟨[], [], [], [], [], []⟩).index :=
  c6_force_shift_matches_auto_detect _ _ (by decide)

/-- C7: parsing the single line of Scenario B yields one record with label
1, weight 2, qid 7, and the single feature pair of id 1 and value one
half: a two-field label pair supplies the weight, and a token starting with
the literal qid marker supplies the qid. -/
theorem c7_label_weight_qid_scenario :
    (parseBlockMember ("1:2.0 qid:7 1:0.5\n".toList) 0
        ⟨[], [], [], [], [], []⟩).label.map DecLit.toRat = [1] ∧
    (parseBlockMember ("1:2.0 qid:7 1:0.5\n".toList) 0
        ⟨[], [], [], [], [], []⟩).weight.map DecLit.toRat = [2] ∧
    (parseBlockMember ("1:2.0 qid:7 1:0.5\n".toList) 0
        ⟨[], [], [], [], [], []⟩).qid = [7] ∧
    (parseBlockMember ("1:2.0 qid:7 1:0.5\n".toList) 0
        ⟨[], [], [], [], [], []⟩).index = [1] ∧
    (parseBlockMember ("1:2.0 qid:7 1:0.5\n".toList) 0
        ⟨[], [], [], [], [], []⟩).value.map DecLit.toRat = [1 / 2] := by
  have h : parseBlockMember ("1:2.0 qid:7 1:0.5\n".toList) 0
      ⟨[], [], [], [], [], []⟩ =
      ⟨[0, 1], [⟨false, 1, 0, 0⟩], [⟨false, 2, 0, 1⟩], [7], [1],
        [⟨false, 0, 5, 1⟩]⟩ := by decide
  rw [h]
  refine ⟨?_, ?_, rfl, rfl, ?_⟩
  · norm_num [DecLit.toRat]
  · norm_num [DecLit.toRat]
  · norm_num [DecLit.toRat]

/-- C8: comment-only and blank lines contribute nothing: parsing the input
of Scenario C yields, for every indexing mode and prior container state,
the very same block as parsing its single record line alone. -/
theorem c8_comment_blank_lines_skipped (indexing_mode : Int)
    (out : RowBlockContainer) :
    parseBlockMember ("# just a comment\n\n1 1:1.0\n".toList) indexing_mode
        out =
      parseBlockMember ("1 1:1.0\n".toList) indexing_mode out := by
  unfold parseBlockMember
  have hcl : out.clear = ⟨[0], [], [], [], [], []⟩ := rfl
  rw [hcl]
  have h : parseLines ("# just a comment\n\n1 1:1.0\n".toList)
        ⟨⟨[0], [], [], [], [], []⟩, 2 ^ 32 - 1⟩ =
      parseLines ("1 1:1.0\n".toList)
        ⟨⟨[0], [], [], [], [], []⟩, 2 ^ 32 - 1⟩ := by decide
  rw [h]

/-- C10: `LibSVMParser::ParseBlock` clears the output container first, so
the produced block does not depend on the container's prior contents. -/
theorem c10_output_independent_of_prior_container (input : List Char)
    (indexing_mode : Int) (out1 out2 : RowBlockContainer) :
    parseBlockMember input indexing_mode out1 =
      parseBlockMember input indexing_mode out2 := rfl

/-- C1 (code bug): the live `LibSVMParser::ParseBlock` has no
weight or qid consistency check. On an input whose first record carries a
weight (respectively a qid) and whose second does not, the pass completes
without any error and returns a weight (respectively qid) sequence covering
only the first record; the fatal check of the claim exists only in the
free-function state machine at lines 117-161, which nothing calls. -/
theorem c1_weight_consistency_unchecked :
    (parseBlockMember ("1:2.0 1:0.5\n2 2:0.3\n".toList) 0
        ⟨[], [], [], [], [], []⟩).label.length = 2 ∧
    (parseBlockMember ("1:2.0 1:0.5\n2 2:0.3\n".toList) 0
        ⟨[], [], [], [], [], []⟩).weight.length = 1 ∧
    (parseBlockMember ("1 qid:3 1:0.5\n2 1:0.3\n".toList) 0
        ⟨[], [], [], [], [], []⟩).label.length = 2 ∧
    (parseBlockMember ("1 qid:3 1:0.5\n2 1:0.3\n".toList) 0
        ⟨[], [], [], [], [], []⟩).qid = [3] := by decide

/-- C2 (code bug): the live `LibSVMParser::ParseBlock` never checks the
arity reported for a feature pair, so the malformed record of Scenario D
does not abort the pass: the trailing garbage after the second record's
pair is skipped as unparseable and the pass completes normally with both
records' features collected. -/
theorem c2_malformed_pair_not_fatal :
    (parseBlockMember ("1 1:0.5\n2 1:0.3:extra\n".toList) 0
        ⟨[], [], [], [], [], []⟩).index = [1, 1] ∧
    (parseBlockMember ("1 1:0.5\n2 1:0.3:extra\n".toList) 0
        ⟨[], [], [], [], [], []⟩).label.length = 2 ∧
    (parseBlockMember ("1 1:0.5\n2 1:0.3:extra\n".toList) 0
        ⟨[], [], [], [], [], []⟩).offset = [0, 1, 2] := by decide

/-- C3 (code bug): a feature token carrying only an id is pushed onto
`index` with nothing pushed onto `value` (the value push is guarded by the
pair arity, the id push is not), so a completed pass can end with
`index.length` different from `value.length`. -/
theorem c3_index_value_lengths_diverge :
    (parseBlockMember ("1 5\n".toList) 0
        ⟨[], [], [], [], [], []⟩).index.length = 1 ∧
    (parseBlockMember ("1 5\n".toList) 0
        ⟨[], [], [], [], [], []⟩).value.length = 0 := by decide

/-- C9: the Line Scanner `IgnoreCommentAndBlank` is a pure function that
returns the full range length when the range is all blanks or when the
comment symbol occurs before any non-blank character, returns the offset of
the first non-blank, non-comment character otherwise, and is idempotent:
re-applying it from its own return position advances by zero. -/
theorem c9_line_scanner_spec (l : List Char) :
    ((∀ c ∈ l, isblankC c = true) → IgnoreCommentAndBlank l = l.length) ∧
    (∀ pre post : List Char, l = pre ++ '#' :: post →
      (∀ c ∈ pre, isblankC c = true) →
      IgnoreCommentAndBlank l = l.length) ∧
    (∀ pre post : List Char, ∀ c : Char, l = pre ++ c :: post →
      (∀ b ∈ pre, isblankC b = true) → isblankC c = false → c ≠ '#' →
      IgnoreCommentAndBlank l = pre.length) ∧
    IgnoreCommentAndBlank (l.drop (IgnoreCommentAndBlank l)) = 0 := by
  induction l with
  | nil =>
    refine ⟨fun _ => rfl, ?_, ?_, rfl⟩
    · intro pre post hsplit _
      exact absurd hsplit.symm (by simp)
    · intro pre post c hsplit _ _ _
      exact absurd hsplit.symm (by simp)
  | cons a rest ih =>
    obtain ⟨ih1, ih2, ih3, ih4⟩ := ih
    by_cases hsh : a = '#'
    · subst hsh
      have hf : IgnoreCommentAndBlank ('#' :: rest) = ('#' :: rest).length := by
        simp [IgnoreCommentAndBlank]
      refine ⟨fun _ => hf, fun _ _ _ _ => hf, ?_, ?_⟩
      · intro pre post c hsplit hblanks hnb hne
        cases pre with
        | nil =>
          simp only [List.nil_append, List.cons.injEq] at hsplit
          exact absurd hsplit.1.symm hne
        | cons b pre2 =>
          simp only [List.cons_append, List.cons.injEq] at hsplit
          have hb := hblanks b (List.mem_cons_self _ _)
          rw [← hsplit.1] at hb
          simp [isblankC] at hb
      · rw [hf, List.drop_length]
        rfl
    · by_cases hbl : isblankC a = true
      · have hf : IgnoreCommentAndBlank (a :: rest) =
            IgnoreCommentAndBlank rest + 1 := by
          simp [IgnoreCommentAndBlank, hsh, hbl]
        refine ⟨?_, ?_, ?_, ?_⟩
        · intro hall
          rw [hf, ih1 (fun x hx => hall x (List.mem_cons_of_mem _ hx))]
          rfl
        · intro pre post hsplit hblanks
          cases pre with
          | nil =>
            simp only [List.nil_append, List.cons.injEq] at hsplit
            exact absurd hsplit.1 hsh
          | cons b pre2 =>
            simp only [List.cons_append, List.cons.injEq] at hsplit
            rw [hf, ih2 pre2 post hsplit.2
              (fun x hx => hblanks x (List.mem_cons_of_mem _ hx))]
            rfl
        · intro pre post c hsplit hblanks hnb hne
          cases pre with
          | nil =>
            simp only [List.nil_append, List.cons.injEq] at hsplit
            rw [hsplit.1] at hbl
            rw [hnb] at hbl
            exact absurd hbl (by simp)
          | cons b pre2 =>
            simp only [List.cons_append, List.cons.injEq] at hsplit
            rw [hf, ih3 pre2 post c hsplit.2
              (fun x hx => hblanks x (List.mem_cons_of_mem _ hx)) hnb hne]
            rfl
        · rw [hf, List.drop_succ_cons]
          exact ih4
      · have hf : IgnoreCommentAndBlank (a :: rest) = 0 := by
          simp [IgnoreCommentAndBlank, hsh, hbl]
        refine ⟨?_, ?_, ?_, ?_⟩
        · intro hall
          exact absurd (hall a (List.mem_cons_self _ _)) hbl
        · intro pre post hsplit hblanks
          cases pre with
          | nil =>
            simp only [List.nil_append, List.cons.injEq] at hsplit
            exact absurd hsplit.1 hsh
          | cons b pre2 =>
            simp only [List.cons_append, List.cons.injEq] at hsplit
            have hb := hblanks b (List.mem_cons_self _ _)
            rw [← hsplit.1] at hb
            exact absurd hb hbl
        · intro pre post c hsplit hblanks hnb hne
          cases pre with
          | nil => exact hf
          | cons b pre2 =>
            simp only [List.cons_append, List.cons.injEq] at hsplit
            have hb := hblanks b (List.mem_cons_self _ _)
            rw [← hsplit.1] at hb
            exact absurd hb hbl
        · rw [hf]
          exact hf

/-- Witness for C9: on a blank followed by a letter the scanner returns
the offset of the letter, the length of the blank prefix. -/
theorem c9_line_scanner_spec_witness :
    IgnoreCommentAndBlank [' ', 'x'] = [' '].length :=
  (c9_line_scanner_spec [' ', 'x']).2.2.1 [' '] [] 'x' rfl (by decide)
    (by decide) (by decide)

/-- Scenario A of the spec, as a sanity check of the embedding: two plain
records in 0-based mode give labels 1 and 0, offsets 0, 2, 3, ids 1, 3, 2
and values one half, one fifth, one tenth, with weights and qids empty. -/
theorem scenarioA_two_records :
    parseBlockMember ("1 1:0.5 3:0.2\n0 2:0.1\n".toList) 0
        ⟨[], [], [], [], [], []⟩ =
      ⟨[0, 2, 3], [⟨false, 1, 0, 0⟩, ⟨false, 0, 0, 0⟩], [], [], [1, 3, 2],
        [⟨false, 0, 5, 1⟩, ⟨false, 0, 2, 1⟩, ⟨false, 0, 1, 1⟩]⟩ := by decide

end LibSVM
